import Mathlib

/-
Verification development for the Hadithology record processor
(src/backend/alpykhari/parser/base.py).

The core of the program is a pure text pipeline applied to each record:
Arabic normalization → chain-keyword marking → segment heuristics →
word-count realignment, plus a lighter English-text normalizer.
Strings are embedded as `List Char`; every Python string operation used by
the source (regex character-class deletion, literal-alternation deletion,
whitespace collapse via `re.sub(r'\s+',' ') .strip()` which coincides with
`' '.join(s.split())`, `str.split`, `str.strip`, `str.replace`,
`'~'.join`) is translated into an executable structural recursion below.
Python's `\s`, `\w` and the regex alternation/backtracking semantics of
the single keyword pattern `\bو?(kw1|kw2|...)\b` are embedded for the
character repertoire the program operates on (Arabic block, ASCII).
-/

/-- Whitespace test matching Python's `\s` / `str.split()` on the ASCII
whitespace characters (the only whitespace the data and the claims use). -/
def isWs (c : Char) : Bool :=
  c == ' ' || c == '\t' || c == '\n' || c == '\r' || c == '\x0b' || c == '\x0c'

/-- The punctuation character class removed by the normalizer
(regex `[:"\'،۔ـ\-\.,]` at base.py line 67). -/
def isPunct (c : Char) : Bool :=
  c == ':' || c == '"' || c == '\'' || c == '،' || c == '۔' || c == 'ـ' ||
  c == '-' || c == '.' || c == ','

/-- Arabic diacritic marks stripped for the analysis copy
(regex `[ؐ-ًؚ-ٰٟۖ-ۭ]`, base.py line 11). -/
def isDiacritic (c : Char) : Bool :=
  decide ((0x610 ≤ c.toNat ∧ c.toNat ≤ 0x61A) ∨
    (0x64B ≤ c.toNat ∧ c.toNat ≤ 0x65F) ∨ c.toNat = 0x670 ∨
    (0x6D6 ≤ c.toNat ∧ c.toNat ≤ 0x6ED))

/-- Python regex `\w` (word character), restricted to the underscore, ASCII
alphanumerics and the Arabic block's letters and digits (combining marks in
the Arabic block are not word characters in Python, and are excluded). -/
def isWordChar (c : Char) : Bool :=
  decide (c = '_' ∨ (0x30 ≤ c.toNat ∧ c.toNat ≤ 0x39) ∨
    (0x41 ≤ c.toNat ∧ c.toNat ≤ 0x5A) ∨ (0x61 ≤ c.toNat ∧ c.toNat ≤ 0x7A) ∨
    (0x620 ≤ c.toNat ∧ c.toNat ≤ 0x64A) ∨ (0x660 ≤ c.toNat ∧ c.toNat ≤ 0x669) ∨
    (0x66E ≤ c.toNat ∧ c.toNat ≤ 0x66F) ∨ (0x671 ≤ c.toNat ∧ c.toNat ≤ 0x6D3) ∨
    c.toNat = 0x6D5 ∨ (0x6E5 ≤ c.toNat ∧ c.toNat ≤ 0x6E6) ∨
    (0x6EE ≤ c.toNat ∧ c.toNat ≤ 0x6FF))

/-- Accumulator worker for whitespace tokenization: `cur` is the reversed
current in-progress token. -/
def swAux : List Char → List Char → List (List Char)
  | cur, [] => if cur.isEmpty then [] else [cur.reverse]
  | cur, c :: rest =>
    if isWs c then
      if cur.isEmpty then swAux [] rest else cur.reverse :: swAux [] rest
    else swAux (c :: cur) rest

/-- Python `str.split()` with no argument: split on whitespace runs,
dropping empty pieces. -/
def splitWs (l : List Char) : List (List Char) := swAux [] l

/-- Python `' '.join(ws)`. -/
def joinW : List (List Char) → List Char
  | [] => []
  | [w] => w
  | w :: ws => w ++ ' ' :: joinW ws

/-- Python `'~'.join(ws)` (base.py lines 110 and 114). -/
def joinT : List (List Char) → List Char
  | [] => []
  | [w] => w
  | w :: ws => w ++ '~' :: joinT ws

/-- Right-trim worker: remove the trailing run of characters satisfying
`p` (and nothing else). -/
def rstripP (p : Char → Bool) : List Char → List Char
  | [] => []
  | c :: rest =>
    match rstripP p rest with
    | [] => if p c then [] else [c]
    | r => c :: r

/-- Python `str.strip(chars)`: remove every leading and trailing
character satisfying `p`. -/
def stripP (p : Char → Bool) (l : List Char) : List Char :=
  rstripP p (l.dropWhile p)

/-- Python `str.strip()`: remove leading and trailing whitespace. -/
def stripWs (l : List Char) : List Char := stripP isWs l

/-- Python `re.sub(r'\s+', ' ', text).strip()` (base.py lines 73 and 95),
which coincides with `' '.join(text.split())`. -/
def collapseWs (l : List Char) : List Char := joinW (splitWs l)

/-- base.py `word_count`: `len(s.split())`. -/
def wordCount (l : List Char) : Nat := (splitWs l).length

/-- Decidable list-prefix test (used to embed literal regex matching). -/
def leadsList : List Char → List Char → Bool
  | [], _ => true
  | _ :: _, [] => false
  | a :: as, b :: bs => a == b && leadsList as bs

/-- Substring occurrence: `occurs p l` is true when the literal `p` occurs
contiguously somewhere in `l` (the semantics of `re.search` on a literal). -/
def occurs (p : List Char) : List Char → Bool
  | [] => leadsList p []
  | l@(_ :: rest) => leadsList p l || occurs p rest

/-- First pattern of the alternation that matches at the current position
(Python alternation tries alternatives in listed order). -/
def findAlt (pats : List (List Char)) (l : List Char) : Option (List Char) :=
  pats.find? (fun p => leadsList p l)

/-- Worker for leftmost non-overlapping deletion of literal alternatives:
the `Nat` counts characters of a previous match still to be skipped. -/
def sdAux (pats : List (List Char)) : Nat → List Char → List Char
  | _, [] => []
  | Nat.succ k, _ :: rest => sdAux pats k rest
  | 0, c :: rest =>
    match findAlt pats (c :: rest) with
    | some a => sdAux pats (a.length - 1) rest
    | none => c :: sdAux pats 0 rest

/-- Python `re.sub(alt1|alt2|..., '', l)` with literal alternatives, and
also `str.replace(pat, '')` (the single-alternative case): delete the
leftmost match, continue scanning after it. -/
def subDelete (pats : List (List Char)) (l : List Char) : List Char :=
  sdAux pats 0 l

/-- Honorific phrase "رضى الله عنها" (feminine singular). -/
def honHA : List Char := "رضى الله عنها".toList

/-- Honorific phrase "رضى الله عنهما" (dual). -/
def honHMA : List Char := "رضى الله عنهما".toList

/-- Honorific phrase "رضى الله عنهم" (plural). -/
def honHM : List Char := "رضى الله عنهم".toList

/-- Honorific phrase "رضى الله عنه" (masculine singular). -/
def honHE : List Char := "رضى الله عنه".toList

/-- The honorific alternation of base.py line 69, in the source's order. -/
def honAlts : List (List Char) := [honHA, honHMA, honHM, honHE]

/-- The benediction phrase removed by `str.replace` at base.py line 71. -/
def benedP : List Char := "صلى الله عليه وسلم".toList

/-- Arabic text normalization (base.py lines 65-74): punctuation-class
removal, honorific-alternation removal, benediction removal, whitespace
collapse; empty input short-circuits. -/
def normalizeAr (t : List Char) : List Char :=
  if t.isEmpty then []
  else collapseWs (subDelete [benedP] (subDelete honAlts
    (t.filter (fun c => !isPunct c))))

/-- Worker for collapsing runs of double quotes; the flag records whether
the previously emitted character was a quote of a run being collapsed. -/
def cqAux : Bool → List Char → List Char
  | _, [] => []
  | prevQ, c :: rest =>
    if c == '"' then
      if prevQ then cqAux true rest else '"' :: cqAux true rest
    else c :: cqAux false rest

/-- Python `re.sub(r'"{2,}', '"', t)` (base.py line 58): every run of two
or more quotes becomes a single quote (runs of one are unchanged). -/
def collapseQ (l : List Char) : List Char := cqAux false l

/-- Python `str.strip('"')`: remove ALL leading and trailing quote
characters (not just one pair). -/
def stripQuotes (l : List Char) : List Char := stripP (fun c => c == '"') l

/-- Python `str.startswith('"')`. -/
def startsQ : List Char → Bool
  | [] => false
  | c :: _ => c == '"'

/-- English text normalization (base.py lines 54-58). -/
def normEn (t : List Char) : List Char :=
  collapseQ (if startsQ t then stripQuotes t else t)

/-- The English outputs of one record: `(text_en, body_en)`
(base.py lines 59-62, `body_en` duplicates `text_en`). -/
def processEn (t : List Char) : List Char × List Char := (normEn t, normEn t)

/-- The chain keywords of base.py lines 83-91, in the source's order. -/
def kwList : List (List Char) :=
  ["حدثنا".toList, "حدثني".toList, "حدثناه".toList, "حدثه".toList,
   "ثنا".toList, "أخبرنا".toList, "أخبرناه".toList, "أخبرني".toList,
   "أخبره".toList, "سمعت".toList, "سمعنا".toList, "سمعناه".toList,
   "سمع".toList, "عن".toList, "عنه".toList, "عنها".toList,
   "يبلغ به".toList, "أنه".toList, "أن".toList, "أنها".toList,
   "قال".toList, "قالت".toList]

/-- Trailing `\b` test after a keyword: end of string, or a non-word
character follows. -/
def endBd : List Char → Bool
  | [] => true
  | c :: _ => !isWordChar c

/-- First keyword of the alternation that matches at this position and is
followed by a word boundary (regex backtracking tries the alternatives in
listed order and rejects those whose trailing `\b` fails). -/
def matchKw (l : List Char) : Option (List Char) :=
  kwList.find? (fun kw => leadsList kw l && endBd (l.drop kw.length))

/-- Attempted match of `و?(kw1|...|kwN)\b` at the current position: the
optional conjunction is greedy, so the branch consuming `و` is tried
first; returns the captured keyword and whether `و` was consumed. -/
def tryMatch (l : List Char) : Option (List Char × Bool) :=
  match l with
  | [] => (matchKw []).map (fun kw => (kw, false))
  | c :: l2 =>
    if c = 'و' then
      match matchKw l2 with
      | some kw => some (kw, true)
      | none => (matchKw (c :: l2)).map (fun kw => (kw, false))
    else (matchKw (c :: l2)).map (fun kw => (kw, false))

/-- Whether a match may start here: the leading `\b` requires the previous
character (when there is one) to be a non-word character; the matched span
always begins with a word character. -/
def prevOk : Option Char → Bool
  | none => true
  | some p => !isWordChar p

/-- Worker embedding `pattern.sub('~ \\1', text)` for the keyword pattern
`\bو?(kw1|...)\b` (base.py lines 93-94): `prev` is the previous character
of the original text (for the leading `\b`), the `Nat` counts characters
of a previous match still to be consumed, and the returned flag records
whether any match consumed an attached `و` (whose replacement `~ \1`
drops it). -/
def msAux : Option Char → Nat → List Char → List Char × Bool
  | _, _, [] => ([], false)
  | prev, Nat.succ k, _ :: rest => msAux prev k rest
  | prev, 0, c :: rest =>
    if prevOk prev && isWordChar c then
      match tryMatch (c :: rest) with
      | some (kw, w) =>
        let span : List Char := if w then 'و' :: kw else kw
        let next := msAux (some (span.getLastD ' ')) (span.length - 1) rest
        ('~' :: ' ' :: (kw ++ next.1), w || next.2)
      | none =>
        let next := msAux (some c) 0 rest
        (c :: next.1, next.2)
    else
      let next := msAux (some c) 0 rest
      (c :: next.1, next.2)

/-- The keyword-marking substitution of base.py line 94. -/
def markSub (l : List Char) : List Char := (msAux none 0 l).1

/-- Whether the substitution consumed (and hence dropped) an attached
conjunction `و` anywhere in the text. -/
def wawConsumed (l : List Char) : Bool := (msAux none 0 l).2

/-- base.py `remove_diacritics`. -/
def removeDiacritics (l : List Char) : List Char :=
  l.filter (fun c => !isDiacritic c)

/-- The full marked text of a normalized record text (base.py lines
78-95): strip diacritics, mark keywords, collapse whitespace. -/
def markOf (t : List Char) : List Char :=
  collapseWs (markSub (removeDiacritics t))

/-- Removal of every marker character, used to state the tokenizer
round-trip claim. -/
def removeTilde (l : List Char) : List Char := l.filter (fun c => !(c == '~'))

/-- Removal of every marker character together with the single space the
substitution inserted after it. -/
def unmark2 : List Char → List Char
  | [] => []
  | [c] => [c]
  | c :: d :: rest =>
    if c = '~' ∧ d = ' ' then unmark2 rest else c :: unmark2 (d :: rest)

/-- The word "نبي" (prophet). -/
def patNabi : List Char := "نبي".toList

/-- The word "رسول" (messenger). -/
def patRasul : List Char := "رسول".toList

/-- The space-surrounded patronymic " بن ". -/
def patBn : List Char := " بن ".toList

/-- The space-surrounded patronymic " ابن ". -/
def patAbn : List Char := " ابن ".toList

/-- Heuristic H1 (base.py line 109): `re.search(r'(نبي|رسول)', delim)`,
i.e. the segment contains either word as a substring. -/
def heurH1 (seg : List Char) : Bool :=
  occurs patNabi seg || occurs patRasul seg

/-- Heuristic H2 (base.py line 113): more than 7 words and no
space-surrounded patronymic (`re.search(r' (بن|ابن) ', delim)` fails). -/
def heurH2 (seg : List Char) : Bool :=
  decide (7 < wordCount seg) && !(occurs patBn seg || occurs patAbn seg)

/-- Either heuristic fires for this segment (H1 is checked first in the
source; the loop body is the same for both, so their disjunction decides
where the scan stops). -/
def heurAny (seg : List Char) : Bool := heurH1 seg || heurH2 seg

/-- Python `str.split(d)` on a single-character separator, keeping empty
pieces (`''.split('~') == ['']`). -/
def splitOnChar (d : Char) : List Char → List (List Char)
  | [] => [[]]
  | c :: rest =>
    if c == d then [] :: splitOnChar d rest
    else
      match splitOnChar d rest with
      | [] => [[c]]
      | t :: ts => (c :: t) :: ts

/-- The cleaned segment list (base.py lines 100-103): split the marked
text on `~`, strip each piece, drop the empty ones. -/
def cleanSegs (m : List Char) : List (List Char) :=
  ((splitOnChar '~' m).map stripWs).filter (fun s => !s.isEmpty)

/-- The scan loop of base.py lines 107-115: stop at the first segment
satisfying either heuristic and keep everything from it onward. -/
def scan : List (List Char) → Option (List (List Char))
  | [] => none
  | d :: rest => if heurAny d then some (d :: rest) else scan rest

/-- The raw body candidate (base.py lines 99-119): the matched tail
re-joined with `~`, the last segment as fallback, or empty when no
segments exist. -/
def bodyPre (segs : List (List Char)) : List Char :=
  match scan segs with
  | some tail => joinT tail
  | none => segs.getLastD []

/-- The final body candidate (base.py line 121): markers replaced by
spaces, then stripped. -/
def bodyCandidate (m : List Char) : List Char :=
  stripWs ((bodyPre (cleanSegs m)).map (fun c => if c == '~' then ' ' else c))

/-- The realigner (base.py lines 123-135): word-count split of the
normalized text driven by the body candidate's word count. -/
def applySplit (text bodyM : List Char) : List Char × List Char :=
  if splitWs text = [] ∨ splitWs bodyM = [] ∨
      (splitWs text).length ≤ (splitWs bodyM).length then ([], text)
  else
    (stripWs (joinW ((splitWs text).take
        ((splitWs text).length - (splitWs bodyM).length))),
     stripWs (joinW ((splitWs text).drop
        ((splitWs text).length - (splitWs bodyM).length))))

/-- The whole Arabic core of one record: normalize, mark, locate the
boundary, realign; returns `(chain, body)`. -/
def segmentText (t : List Char) : List Char × List Char :=
  applySplit (normalizeAr t) (bodyCandidate (markOf (normalizeAr t)))

/-- No two adjacent whitespace characters anywhere in the list. -/
def noAdjWs : List Char → Bool
  | [] => true
  | [_] => true
  | c :: d :: rest => !(isWs c && isWs d) && noAdjWs (d :: rest)

/-- The first character, if any, is not whitespace. -/
def headOkWs : List Char → Bool
  | [] => true
  | c :: _ => !isWs c

/-- The last character, if any, is not whitespace. -/
def lastOkWs (l : List Char) : Bool :=
  match l.getLast? with
  | none => true
  | some c => !isWs c

/-- Every whitespace character in the list is a plain space. -/
def wsOnlySpace (l : List Char) : Bool := l.all (fun c => !isWs c || c == ' ')

/-- Fully collapsed whitespace: no double whitespace, no leading or
trailing whitespace, and every whitespace character is a single space. -/
def cleanStr (l : List Char) : Bool :=
  noAdjWs l && headOkWs l && lastOkWs l && wsOnlySpace l

/-- No two adjacent quote characters anywhere in the list. -/
def noAdjQ : List Char → Bool
  | [] => true
  | [_] => true
  | c :: d :: rest => !(c == '"' && d == '"') && noAdjQ (d :: rest)

/-- Modelled from the spec (and from claim C9's wording, which the code
does not implement): strip a SINGLE leading/trailing quote pair when the
string starts with a quote, then collapse quote runs; used only to state
the C9 counterexample against the code's `normEn`. -/
def stripOnePair (t : List Char) : List Char :=
  match t with
  | '"' :: rest =>
    match rest.getLast? with
    | some '"' => rest.dropLast
    | _ => rest
  | _ => t

/-- The English normalizer as claim C9 describes it (single pair
stripped), for comparison with the code's `normEn`. -/
def normEnSpec (t : List Char) : List Char :=
  collapseQ (if startsQ t then stripOnePair t else t)

/-! Whitespace tokenization lemmas. -/


theorem isWs_space : isWs ' ' = true := rfl

theorem swAux_nil (cur : List Char) :
    swAux cur [] = if cur.isEmpty then [] else [cur.reverse] := rfl

theorem swAux_cons (cur : List Char) (c : Char) (rest : List Char) :
    swAux cur (c :: rest) =
      if isWs c then
        if cur.isEmpty then swAux [] rest else cur.reverse :: swAux [] rest
      else swAux (c :: cur) rest := rfl

theorem swAux_append_space (a : List Char) : ∀ (cur b : List Char),
    swAux cur (a ++ ' ' :: b) = swAux cur a ++ swAux [] b := by
  induction a with
  | nil =>
    intro cur b
    cases hcur : cur.isEmpty <;>
      simp [swAux_cons, swAux_nil, isWs_space, hcur]
  | cons x a ih =>
    intro cur b
    cases hx : isWs x with
    | true =>
      cases hcur : cur.isEmpty <;>
        simp [swAux_cons, hx, hcur, ih]
    | false =>
      simp [List.cons_append, swAux_cons, hx, ih]

theorem splitWs_append_space (a b : List Char) :
    splitWs (a ++ ' ' :: b) = splitWs a ++ splitWs b :=
  swAux_append_space a [] b

theorem swAux_all_nonws : ∀ (w : List Char), (∀ c ∈ w, isWs c = false) →
    ∀ cur, swAux cur w =
      if cur.isEmpty && w.isEmpty then [] else [cur.reverse ++ w] := by
  intro w
  induction w with
  | nil =>
    intro _ cur
    cases hcur : cur.isEmpty <;> simp [swAux_nil, hcur]
  | cons c w ih =>
    intro h cur
    have hc : isWs c = false := h c (List.mem_cons_self c w)
    have hrest : ∀ x ∈ w, isWs x = false := fun x hx => h x (List.mem_cons_of_mem c hx)
    rw [swAux_cons, hc]
    simp only [Bool.false_eq_true, if_false]
    rw [ih hrest (c :: cur)]
    simp

theorem splitWs_single (w : List Char) (hne : w ≠ [])
    (hnw : ∀ c ∈ w, isWs c = false) : splitWs w = [w] := by
  have := swAux_all_nonws w hnw []
  rw [splitWs, this]
  simp [List.isEmpty_iff, hne]

theorem joinW_cons_ne (w : List Char) (ws : List (List Char)) (h : ws ≠ []) :
    joinW (w :: ws) = w ++ ' ' :: joinW ws := by
  cases ws with
  | nil => exact absurd rfl h
  | cons w2 ws2 => rfl

theorem splitWs_joinW : ∀ (ws : List (List Char)),
    (∀ w ∈ ws, w ≠ [] ∧ ∀ c ∈ w, isWs c = false) →
    splitWs (joinW ws) = ws := by
  intro ws
  induction ws with
  | nil => intro _; rfl
  | cons w ws ih =>
    intro h
    have hw := h w (List.mem_cons_self w ws)
    cases ws with
    | nil => exact splitWs_single w hw.1 hw.2
    | cons w2 ws2 =>
      rw [joinW_cons_ne w (w2 :: ws2) (by simp), splitWs_append_space,
        splitWs_single w hw.1 hw.2,
        ih (fun x hx => h x (List.mem_cons_of_mem w hx))]
      rfl

theorem swAux_wf : ∀ (l cur : List Char), (∀ c ∈ cur, isWs c = false) →
    ∀ w ∈ swAux cur l, w ≠ [] ∧ ∀ c ∈ w, isWs c = false := by
  intro l
  induction l with
  | nil =>
    intro cur hcur w hw
    rw [swAux_nil] at hw
    cases cur with
    | nil => simp at hw
    | cons c0 cur0 =>
      simp only [List.isEmpty_cons, Bool.false_eq_true, if_false] at hw
      rw [List.mem_singleton] at hw
      subst hw
      refine ⟨by simp, ?_⟩
      intro c hc
      exact hcur c (List.mem_reverse.mp hc)
  | cons c rest ih =>
    intro cur hcur w hw
    rw [swAux_cons] at hw
    cases hx : isWs c with
    | true =>
      rw [hx] at hw
      simp only [if_true] at hw
      cases hcurE : cur.isEmpty with
      | true =>
        rw [hcurE] at hw
        simp only [if_true] at hw
        exact ih [] (by simp) w hw
      | false =>
        rw [hcurE] at hw
        simp only [Bool.false_eq_true, if_false] at hw
        rcases List.mem_cons.mp hw with hw | hw
        · subst hw
          cases cur with
          | nil => simp at hcurE
          | cons c0 cur0 =>
            refine ⟨by simp, ?_⟩
            intro x hxm
            exact hcur x (List.mem_reverse.mp hxm)
        · exact ih [] (by simp) w hw
    | false =>
      rw [hx] at hw
      simp only [Bool.false_eq_true, if_false] at hw
      refine ih (c :: cur) ?_ w hw
      intro x hxm
      rcases List.mem_cons.mp hxm with hxm | hxm
      · subst hxm; exact hx
      · exact hcur x hxm

theorem splitWs_wf (l : List Char) :
    ∀ w ∈ splitWs l, w ≠ [] ∧ ∀ c ∈ w, isWs c = false :=
  swAux_wf l [] (by simp)

/-! Membership, join and strip lemmas. -/

theorem swAux_subset : ∀ (l cur w : List Char), w ∈ swAux cur l →
    ∀ c ∈ w, c ∈ cur ∨ c ∈ l := by
  intro l
  induction l with
  | nil =>
    intro cur w hw c hc
    rw [swAux_nil] at hw
    cases cur with
    | nil => simp at hw
    | cons c0 cur0 =>
      simp only [List.isEmpty_cons, Bool.false_eq_true, if_false] at hw
      rw [List.mem_singleton] at hw
      subst hw
      exact Or.inl (List.mem_reverse.mp hc)
  | cons x rest ih =>
    intro cur w hw c hc
    rw [swAux_cons] at hw
    cases hx : isWs x with
    | true =>
      rw [hx] at hw
      simp only [if_true] at hw
      cases hcurE : cur.isEmpty with
      | true =>
        rw [hcurE] at hw
        simp only [if_true] at hw
        rcases ih [] w hw c hc with h | h
        · simp at h
        · exact Or.inr (List.mem_cons_of_mem x h)
      | false =>
        rw [hcurE] at hw
        simp only [Bool.false_eq_true, if_false] at hw
        rcases List.mem_cons.mp hw with hw | hw
        · subst hw
          exact Or.inl (List.mem_reverse.mp hc)
        · rcases ih [] w hw c hc with h | h
          · simp at h
          · exact Or.inr (List.mem_cons_of_mem x h)
    | false =>
      rw [hx] at hw
      simp only [Bool.false_eq_true, if_false] at hw
      rcases ih (x :: cur) w hw c hc with h | h
      · rcases List.mem_cons.mp h with h | h
        · rw [h]; exact Or.inr (List.mem_cons_self x rest)
        · exact Or.inl h
      · exact Or.inr (List.mem_cons_of_mem x h)

theorem splitWs_subset (l w : List Char) (hw : w ∈ splitWs l) :
    ∀ c ∈ w, c ∈ l := by
  intro c hc
  rcases swAux_subset l [] w hw c hc with h | h
  · simp at h
  · exact h

theorem joinW_mem : ∀ (ws : List (List Char)) (c : Char), c ∈ joinW ws →
    c = ' ' ∨ ∃ w, w ∈ ws ∧ c ∈ w := by
  intro ws
  induction ws with
  | nil => intro c hc; simp [joinW] at hc
  | cons w ws ih =>
    intro c hc
    cases ws with
    | nil =>
      exact Or.inr ⟨w, List.mem_cons_self w [], hc⟩
    | cons w2 ws2 =>
      rw [joinW_cons_ne w (w2 :: ws2) (by simp)] at hc
      rcases List.mem_append.mp hc with h | h
      · exact Or.inr ⟨w, List.mem_cons_self w _, h⟩
      · rcases List.mem_cons.mp h with h | h
        · exact Or.inl h
        · rcases ih c h with h2 | ⟨w3, hw3, hc3⟩
          · exact Or.inl h2
          · exact Or.inr ⟨w3, List.mem_cons_of_mem w hw3, hc3⟩

theorem joinW_ne_nil (w : List Char) (ws : List (List Char)) (h : w ≠ []) :
    joinW (w :: ws) ≠ [] := by
  cases ws with
  | nil => exact h
  | cons w2 ws2 =>
    rw [joinW_cons_ne w (w2 :: ws2) (by simp)]
    cases w with
    | nil => simp
    | cons c w0 => simp

theorem joinW_eq_append (w : List Char) (ws : List (List Char)) :
    ∃ t, joinW (w :: ws) = w ++ t := by
  cases ws with
  | nil => exact ⟨[], by simp [joinW]⟩
  | cons w2 ws2 => exact ⟨' ' :: joinW (w2 :: ws2), rfl⟩

theorem lastMem : ∀ (l : List Char) (a : Char), l.getLast? = some a → a ∈ l := by
  intro l
  induction l with
  | nil => intro a ha; simp [List.getLast?] at ha
  | cons c rest ih =>
    intro a ha
    cases rest with
    | nil =>
      have hca : c = a := by simpa using ha
      rw [← hca]
      exact List.mem_cons_self c []
    | cons d rest2 =>
      rw [List.getLast?_cons_cons] at ha
      exact List.mem_cons_of_mem c (ih a ha)

theorem joinW_getLast_nonws : ∀ (ws : List (List Char)),
    (∀ w ∈ ws, w ≠ [] ∧ ∀ c ∈ w, isWs c = false) →
    ∀ c, (joinW ws).getLast? = some c → isWs c = false := by
  intro ws
  induction ws with
  | nil => intro _ c hc; simp [joinW, List.getLast?] at hc
  | cons w ws ih =>
    intro h c hc
    cases ws with
    | nil =>
      exact (h w (List.mem_cons_self w [])).2 c (lastMem w c hc)
    | cons w2 ws2 =>
      rw [joinW_cons_ne w (w2 :: ws2) (by simp)] at hc
      rw [List.getLast?_append_of_ne_nil w (by simp)] at hc
      have hJ : joinW (w2 :: ws2) ≠ [] :=
        joinW_ne_nil w2 ws2 (h w2 (List.mem_cons_of_mem w (List.mem_cons_self w2 ws2))).1
      rcases List.exists_cons_of_ne_nil hJ with ⟨j0, jr, hj⟩
      rw [hj, List.getLast?_cons_cons] at hc
      refine ih (fun x hx => h x (List.mem_cons_of_mem w hx)) c ?_
      rw [hj]
      exact hc

theorem dropWhile_eq_self_of_head (p : Char → Bool) (l : List Char)
    (h : ∀ c, l.head? = some c → p c = false) : l.dropWhile p = l := by
  cases l with
  | nil => rfl
  | cons c rest =>
    rw [List.dropWhile_cons, h c rfl]
    simp

theorem dropWhile_head_not (p : Char → Bool) : ∀ (l : List Char) (c : Char),
    (l.dropWhile p).head? = some c → p c = false := by
  intro l
  induction l with
  | nil => intro c hc; simp at hc
  | cons d rest ih =>
    intro c hc
    rw [List.dropWhile_cons] at hc
    cases hd : p d with
    | true => rw [hd] at hc; simp only [if_true] at hc; exact ih c hc
    | false =>
      rw [hd] at hc
      simp only [Bool.false_eq_true, if_false, List.head?_cons, Option.some.injEq] at hc
      subst hc
      exact hd

theorem dropWhile_mem (p : Char → Bool) (l : List Char) (c : Char)
    (h : c ∈ l.dropWhile p) : c ∈ l :=
  (List.dropWhile_suffix p).subset h

theorem rstripP_cons_of_nil (p : Char → Bool) (c : Char) (rest : List Char)
    (h : rstripP p rest = []) :
    rstripP p (c :: rest) = if p c then [] else [c] := by
  unfold rstripP
  rw [h]

theorem rstripP_cons_of_ne (p : Char → Bool) (c r0 : Char)
    (rest rs : List Char) (h : rstripP p rest = r0 :: rs) :
    rstripP p (c :: rest) = c :: r0 :: rs := by
  unfold rstripP
  rw [h]

theorem rstripP_eq_self (p : Char → Bool) : ∀ (l : List Char),
    (∀ c, l.getLast? = some c → p c = false) → rstripP p l = l := by
  intro l
  induction l with
  | nil => intro _; rfl
  | cons c rest ih =>
    intro h
    cases rest with
    | nil =>
      have hc : p c = false := h c (by simp)
      rw [rstripP_cons_of_nil p c [] rfl, hc]
      simp
    | cons d r2 =>
      have hr : rstripP p (d :: r2) = d :: r2 := by
        refine ih ?_
        intro x hx
        refine h x ?_
        rw [List.getLast?_cons_cons]
        exact hx
      rw [rstripP_cons_of_ne p c d (d :: r2) r2 hr]

theorem rstripP_getLast_not (p : Char → Bool) : ∀ (l : List Char) (c : Char),
    (rstripP p l).getLast? = some c → p c = false := by
  intro l
  induction l with
  | nil => intro c hc; simp [rstripP] at hc
  | cons d rest ih =>
    intro c hc
    cases hr : rstripP p rest with
    | nil =>
      rw [rstripP_cons_of_nil p d rest hr] at hc
      cases hp : p d with
      | true => rw [hp] at hc; simp at hc
      | false =>
        rw [hp] at hc
        simp only [Bool.false_eq_true, if_false] at hc
        have : d = c := by simpa using hc
        rw [← this]
        exact hp
    | cons r0 rs =>
      rw [rstripP_cons_of_ne p d r0 rest rs hr] at hc
      rw [List.getLast?_cons_cons] at hc
      refine ih c ?_
      rw [hr]
      exact hc

theorem rstripP_head (p : Char → Bool) (l : List Char) (c : Char)
    (h : (rstripP p l).head? = some c) : l.head? = some c := by
  cases l with
  | nil => simp [rstripP] at h
  | cons d rest =>
    cases hr : rstripP p rest with
    | nil =>
      rw [rstripP_cons_of_nil p d rest hr] at h
      cases hp : p d with
      | true => rw [hp] at h; simp at h
      | false =>
        rw [hp] at h
        simp only [Bool.false_eq_true, if_false, List.head?_cons] at h
        rw [← h]
        rfl
    | cons r0 rs =>
      rw [rstripP_cons_of_ne p d r0 rest rs hr] at h
      simp only [List.head?_cons] at h
      rw [← h]
      rfl

theorem rstripP_mem (p : Char → Bool) : ∀ (l : List Char) (c : Char),
    c ∈ rstripP p l → c ∈ l := by
  intro l
  induction l with
  | nil => intro c hc; simp [rstripP] at hc
  | cons d rest ih =>
    intro c hc
    cases hr : rstripP p rest with
    | nil =>
      rw [rstripP_cons_of_nil p d rest hr] at hc
      cases hp : p d with
      | true => rw [hp] at hc; simp at hc
      | false =>
        rw [hp] at hc
        simp only [Bool.false_eq_true, if_false] at hc
        rw [List.mem_singleton] at hc
        rw [hc]
        exact List.mem_cons_self d rest
    | cons r0 rs =>
      rw [rstripP_cons_of_ne p d r0 rest rs hr] at hc
      rcases List.mem_cons.mp hc with hc | hc
      · rw [hc]; exact List.mem_cons_self d rest
      · refine List.mem_cons_of_mem d (ih c ?_)
        rw [hr]
        exact hc

theorem stripP_eq_self (p : Char → Bool) (l : List Char)
    (hh : ∀ c, l.head? = some c → p c = false)
    (hl : ∀ c, l.getLast? = some c → p c = false) : stripP p l = l := by
  unfold stripP
  rw [dropWhile_eq_self_of_head p l hh]
  exact rstripP_eq_self p l hl

theorem stripP_head_not (p : Char → Bool) (l : List Char) (c : Char)
    (h : (stripP p l).head? = some c) : p c = false :=
  dropWhile_head_not p l c (rstripP_head p _ c h)

theorem stripP_getLast_not (p : Char → Bool) (l : List Char) (c : Char)
    (h : (stripP p l).getLast? = some c) : p c = false :=
  rstripP_getLast_not p _ c h

theorem stripP_mem (p : Char → Bool) (l : List Char) (c : Char)
    (h : c ∈ stripP p l) : c ∈ l :=
  dropWhile_mem p l c (rstripP_mem p _ c h)

theorem stripP_idem (p : Char → Bool) (l : List Char) :
    stripP p (stripP p l) = stripP p l :=
  stripP_eq_self p (stripP p l) (stripP_head_not p l) (stripP_getLast_not p l)

theorem stripWs_cons_space (l : List Char) : stripWs (' ' :: l) = stripWs l := by
  unfold stripWs stripP
  rw [List.dropWhile_cons]
  simp [isWs_space]

theorem stripWs_joinW (ws : List (List Char))
    (h : ∀ w ∈ ws, w ≠ [] ∧ ∀ c ∈ w, isWs c = false) :
    stripWs (joinW ws) = joinW ws := by
  cases ws with
  | nil => rfl
  | cons w ws2 =>
    refine stripP_eq_self isWs _ ?_ ?_
    · intro c hc
      have hw := h w (List.mem_cons_self w ws2)
      rcases joinW_eq_append w ws2 with ⟨t, ht⟩
      rcases List.exists_cons_of_ne_nil hw.1 with ⟨c0, w0, hw0⟩
      rw [ht, hw0] at hc
      simp only [List.cons_append, List.head?_cons] at hc
      have : c0 = c := by simpa using hc
      rw [← this]
      exact hw.2 c0 (by rw [hw0]; exact List.mem_cons_self c0 w0)
    · exact joinW_getLast_nonws (w :: ws2) h

theorem collapseWs_joinW (ws : List (List Char))
    (h : ∀ w ∈ ws, w ≠ [] ∧ ∀ c ∈ w, isWs c = false) :
    collapseWs (joinW ws) = joinW ws := by
  rw [collapseWs, splitWs_joinW ws h]

theorem normalizeAr_join (t : List Char) : ∃ ws, normalizeAr t = joinW ws ∧
    ∀ w ∈ ws, w ≠ [] ∧ ∀ c ∈ w, isWs c = false := by
  unfold normalizeAr
  cases ht : t.isEmpty with
  | true =>
    simp only [if_true]
    exact ⟨[], rfl, by simp⟩
  | false =>
    simp only [Bool.false_eq_true, if_false]
    exact ⟨splitWs (subDelete [benedP] (subDelete honAlts
      (t.filter (fun c => !isPunct c)))), rfl, splitWs_wf _⟩

/-! Segment-scan lemmas. -/

theorem scan_cons_true (d : List Char) (rest : List (List Char))
    (h : heurAny d = true) : scan (d :: rest) = some (d :: rest) := by
  simp [scan, h]

theorem scan_cons_false (d : List Char) (rest : List (List Char))
    (h : heurAny d = false) : scan (d :: rest) = scan rest := by
  simp [scan, h]

theorem scan_none_of_all : ∀ (segs : List (List Char)),
    (∀ w ∈ segs, heurAny w = false) → scan segs = none := by
  intro segs
  induction segs with
  | nil => intro _; rfl
  | cons s rest ih =>
    intro h
    rw [scan_cons_false s rest (h s (List.mem_cons_self s rest))]
    exact ih (fun w hw => h w (List.mem_cons_of_mem s hw))

theorem scan_drop : ∀ (j : Nat) (segs : List (List Char)),
    (∀ w ∈ segs.take j, heurAny w = false) → scan segs = scan (segs.drop j) := by
  intro j
  induction j with
  | zero => intro segs _; rfl
  | succ j ih =>
    intro segs h
    cases segs with
    | nil => rfl
    | cons s rest =>
      have hs : heurAny s = false := by
        refine h s ?_
        rw [List.take_succ_cons]
        exact List.mem_cons_self s _
      rw [scan_cons_false s rest hs, List.drop_succ_cons]
      refine ih rest ?_
      intro w hw
      refine h w ?_
      rw [List.take_succ_cons]
      exact List.mem_cons_of_mem s hw

theorem scan_some_subset : ∀ (segs tail : List (List Char)),
    scan segs = some tail → ∀ w ∈ tail, w ∈ segs := by
  intro segs
  induction segs with
  | nil => intro tail h; simp [scan] at h
  | cons d rest ih =>
    intro tail h w hw
    cases hd : heurAny d with
    | true =>
      rw [scan_cons_true d rest hd] at h
      have : d :: rest = tail := by simpa using h
      rw [← this] at hw
      exact hw
    | false =>
      rw [scan_cons_false d rest hd] at h
      exact List.mem_cons_of_mem d (ih tail h w hw)

theorem splitOnChar_no_delim (d : Char) : ∀ (l w : List Char),
    w ∈ splitOnChar d l → d ∉ w := by
  intro l
  induction l with
  | nil =>
    intro w hw
    simp [splitOnChar] at hw
    rw [hw]
    simp
  | cons c rest ih =>
    intro w hw
    rw [splitOnChar] at hw
    cases hc : c == d with
    | true =>
      rw [hc] at hw
      simp only [if_true] at hw
      rcases List.mem_cons.mp hw with hw | hw
      · rw [hw]; simp
      · exact ih w hw
    | false =>
      rw [hc] at hw
      simp only [Bool.false_eq_true, if_false] at hw
      have hcd : ¬(d = c) := by
        intro hdc
        rw [hdc] at hc
        simp at hc
      cases hs : splitOnChar d rest with
      | nil =>
        rw [hs] at hw
        rw [List.mem_singleton] at hw
        rw [hw]
        simp [hcd]
      | cons t ts =>
        rw [hs] at hw
        rcases List.mem_cons.mp hw with hw | hw
        · rw [hw]
          intro hmem
          rcases List.mem_cons.mp hmem with h1 | h1
          · exact hcd h1
          · exact ih t (by rw [hs]; exact List.mem_cons_self t ts) h1
        · exact ih w (by rw [hs]; exact List.mem_cons_of_mem t hw)

theorem getLastD_mem {α : Type} : ∀ (l : List α) (d : α), l ≠ [] →
    l.getLastD d ∈ l := by
  intro l
  induction l with
  | nil => intro d h; exact absurd rfl h
  | cons x rest ih =>
    intro d _
    cases rest with
    | nil => simp [List.getLastD]
    | cons y r2 =>
      have : (x :: y :: r2).getLastD d = (y :: r2).getLastD d := by
        simp [List.getLastD]
      rw [this]
      exact List.mem_cons_of_mem x (ih d (by simp))

theorem cleanSegs_mem (m w : List Char) (hw : w ∈ cleanSegs m) :
    w ≠ [] ∧ stripWs w = w ∧ '~' ∉ w := by
  unfold cleanSegs at hw
  rcases List.mem_filter.mp hw with ⟨hmap, hne⟩
  rcases List.mem_map.mp hmap with ⟨raw, hraw, hstrip⟩
  refine ⟨?_, ?_, ?_⟩
  · intro hnil
    rw [hnil] at hne
    simp at hne
  · rw [← hstrip]
    exact stripP_idem isWs raw
  · intro hmem
    have : ('~' : Char) ∈ raw := by
      rw [← hstrip] at hmem
      exact stripP_mem isWs raw '~' hmem
    exact splitOnChar_no_delim '~' m raw hraw this

theorem mapT_id : ∀ (w : List Char), '~' ∉ w →
    w.map (fun c => if c == '~' then ' ' else c) = w := by
  intro w
  induction w with
  | nil => intro _; rfl
  | cons c w ih =>
    intro h
    have hc : (c == '~') = false := by
      simp only [beq_eq_false_iff_ne, ne_eq]
      intro hcc
      rw [hcc] at h
      exact h (List.mem_cons_self '~' w)
    simp only [List.map_cons, hc, Bool.false_eq_true, if_false]
    rw [ih (fun hm => h (List.mem_cons_of_mem c hm))]

theorem mapT_joinT : ∀ (ws : List (List Char)), (∀ w ∈ ws, '~' ∉ w) →
    (joinT ws).map (fun c => if c == '~' then ' ' else c) = joinW ws := by
  intro ws
  induction ws with
  | nil => intro _; rfl
  | cons w ws ih =>
    intro h
    cases ws with
    | nil => exact mapT_id w (h w (List.mem_cons_self w []))
    | cons w2 ws2 =>
      have hj : joinT (w :: w2 :: ws2) = w ++ '~' :: joinT (w2 :: ws2) := rfl
      rw [hj, List.map_append, List.map_cons]
      simp only [beq_self_eq_true, if_true]
      rw [mapT_id w (h w (List.mem_cons_self w _)),
        ih (fun x hx => h x (List.mem_cons_of_mem w hx)),
        joinW_cons_ne w (w2 :: ws2) (by simp)]

theorem bodyCandidate_of_scan_some (m : List Char) (tail : List (List Char))
    (h : scan (cleanSegs m) = some tail) :
    bodyCandidate m = stripWs (joinW tail) := by
  unfold bodyCandidate bodyPre
  rw [h]
  rw [mapT_joinT tail (fun w hw =>
    (cleanSegs_mem m w (scan_some_subset (cleanSegs m) tail h w hw)).2.2)]

theorem bodyCandidate_of_scan_none (m : List Char)
    (h : scan (cleanSegs m) = none) :
    bodyCandidate m = (cleanSegs m).getLastD [] := by
  unfold bodyCandidate bodyPre
  rw [h]
  cases hsegs : cleanSegs m with
  | nil => rfl
  | cons s segs2 =>
    have hlast : (s :: segs2).getLastD [] ∈ cleanSegs m := by
      rw [hsegs]
      exact getLastD_mem (s :: segs2) [] (by simp)
    rcases cleanSegs_mem m _ hlast with ⟨_, hstrip, htil⟩
    rw [mapT_id _ htil, hstrip]

/-- Claim C2: scanning a non-empty segment list stops at the first
(lowest-index) segment satisfying either heuristic; when that segment
satisfies H1 (it contains "نبي" or "رسول"), the body candidate is the
segments from that index onward rejoined with a single space in place of
each marker (and trimmed, as the code does). The hypotheses say segment
`j` is the first one at which the scan can stop and that H1 holds there;
H1 is checked before H2 in the source, but both branches of the loop keep
the same tail, so the scan's stopping index is exactly the first index
where either heuristic fires. -/
theorem claim_C2_boundary_scan (m : List Char) (j : Nat)
    (hlt : j < (cleanSegs m).length)
    (hpre : ∀ w ∈ (cleanSegs m).take j, heurAny w = false)
    (h1 : heurH1 (((cleanSegs m).drop j).headD []) = true) :
    bodyCandidate m = stripWs (joinW ((cleanSegs m).drop j)) := by
  have hne : (cleanSegs m).drop j ≠ [] := by
    apply List.ne_nil_of_length_pos
    rw [List.length_drop]
    omega
  rcases List.exists_cons_of_ne_nil hne with ⟨seg, tl, hd⟩
  have hseg : heurAny seg = true := by
    rw [hd] at h1
    simp only [List.headD_cons] at h1
    simp [heurAny, h1]
  have hscan : scan (cleanSegs m) = some ((cleanSegs m).drop j) := by
    rw [scan_drop j (cleanSegs m) hpre, hd]
    exact scan_cons_true seg tl hseg
  exact bodyCandidate_of_scan_some m _ hscan

/-- Claim C4: when every cleaned segment fails both heuristics, the body
candidate collapses to the final segment (`getLastD [] = []` when no
segment remains); and with no segments the candidate is empty, in which
case the realigner returns the whole text as body with an empty chain. -/
theorem claim_C4_fallback (m t : List Char)
    (hall : ∀ w ∈ cleanSegs m, heurAny w = false) :
    bodyCandidate m = (cleanSegs m).getLastD [] ∧
      (cleanSegs m = [] → bodyCandidate m = [] ∧ applySplit t [] = ([], t)) := by
  have hscan := scan_none_of_all (cleanSegs m) hall
  have hbc := bodyCandidate_of_scan_none m hscan
  refine ⟨hbc, ?_⟩
  intro hnil
  constructor
  · rw [hbc, hnil]; rfl
  · unfold applySplit
    split
    · rfl
    · next hcond => exact absurd (Or.inr (Or.inl rfl)) hcond

/-- Claim C3 counterexample: the claim asserts that ANY segment of 8 or
more words containing the patronymic "بن" must not trigger H2; but the
source's regex requires the patronymic to be surrounded by spaces, so an
8-word segment that starts with "بن" does trigger H2. -/
theorem claim_C3_counterexample :
    7 < wordCount "بن ا ب ت ث ج ح خ".toList ∧
    occurs "بن".toList "بن ا ب ت ث ج ح خ".toList = true ∧
    heurH2 "بن ا ب ت ث ج ح خ".toList = true := by decide

/-- Claim C3 amended: a segment of more than 7 words whose text contains
the patronymic "بن" or "ابن" SURROUNDED BY SPACES does not trigger H2,
and (when it is the first segment at which the scan could stop, and H1
also fails there) the scan continues past it to later segments or the
fallback. A segment containing the patronymic only at its start or end
(not space-surrounded) still triggers H2, as the counterexample shows. -/
theorem claim_C3_amended (m : List Char) (j : Nat)
    (hlt : j < (cleanSegs m).length)
    (hpre : ∀ w ∈ (cleanSegs m).take j, heurAny w = false)
    (hpat : (occurs patBn (((cleanSegs m).drop j).headD []) ||
        occurs patAbn (((cleanSegs m).drop j).headD [])) = true)
    (hh1 : heurH1 (((cleanSegs m).drop j).headD []) = false) :
    heurH2 (((cleanSegs m).drop j).headD []) = false ∧
      scan (cleanSegs m) = scan ((cleanSegs m).drop (j + 1)) := by
  have hH2 : heurH2 (((cleanSegs m).drop j).headD []) = false := by
    rw [heurH2, hpat]
    simp
  refine ⟨hH2, ?_⟩
  have hne : (cleanSegs m).drop j ≠ [] := by
    apply List.ne_nil_of_length_pos
    rw [List.length_drop]
    omega
  rcases List.exists_cons_of_ne_nil hne with ⟨seg, tl, hd⟩
  have hAny : heurAny seg = false := by
    rw [hd] at hh1 hH2
    simp only [List.headD_cons] at hh1 hH2
    simp [heurAny, hh1, hH2]
  have hdrop : (cleanSegs m).drop (j + 1) = tl := by
    have := List.drop_drop 1 j (cleanSegs m)
    rw [hd] at this
    simpa using this.symm
  rw [scan_drop j (cleanSegs m) hpre, hd, scan_cons_false seg tl hAny, hdrop]

/-! Realigner lemmas. -/

theorem joinW_append_ne : ∀ (A B : List (List Char)), A ≠ [] → B ≠ [] →
    joinW (A ++ B) = joinW A ++ ' ' :: joinW B := by
  intro A
  induction A with
  | nil => intro B h _; exact absurd rfl h
  | cons w A ih =>
    intro B _ hB
    cases A with
    | nil =>
      rw [List.singleton_append, joinW_cons_ne w B hB]
      rfl
    | cons w2 A2 =>
      have hne : (w2 :: A2) ++ B ≠ [] := by simp
      rw [List.cons_append, joinW_cons_ne w ((w2 :: A2) ++ B) hne,
        ih B (by simp) hB, joinW_cons_ne w (w2 :: A2) (by simp)]
      simp

theorem applySplit_cases (text bodyM : List Char) :
    applySplit text bodyM = ([], text) ∨
      ∃ d, 0 < d ∧ d < (splitWs text).length ∧
        applySplit text bodyM =
          (stripWs (joinW ((splitWs text).take d)),
           stripWs (joinW ((splitWs text).drop d))) := by
  unfold applySplit
  split
  · exact Or.inl rfl
  · next hcond =>
    push_neg at hcond
    rcases hcond with ⟨ht, hb, hlen⟩
    have hbpos : 0 < (splitWs bodyM).length := List.length_pos.mpr hb
    refine Or.inr ⟨(splitWs text).length - (splitWs bodyM).length, ?_, ?_, rfl⟩
    · omega
    · omega

theorem sdAux_subset (pats : List (List Char)) : ∀ (l : List Char) (k : Nat)
    (c : Char), c ∈ sdAux pats k l → c ∈ l := by
  intro l
  induction l with
  | nil => intro k c hc; cases k <;> simp [sdAux] at hc
  | cons x rest ih =>
    intro k c hc
    cases k with
    | succ k =>
      exact List.mem_cons_of_mem x (ih k c hc)
    | zero =>
      cases hf : findAlt pats (x :: rest) with
      | some a =>
        have he : sdAux pats 0 (x :: rest) = sdAux pats (a.length - 1) rest := by
          show (match findAlt pats (x :: rest) with
            | some a => sdAux pats (a.length - 1) rest
            | none => x :: sdAux pats 0 rest) = _
          rw [hf]
        rw [he] at hc
        exact List.mem_cons_of_mem x (ih (a.length - 1) c hc)
      | none =>
        have he : sdAux pats 0 (x :: rest) = x :: sdAux pats 0 rest := by
          show (match findAlt pats (x :: rest) with
            | some a => sdAux pats (a.length - 1) rest
            | none => x :: sdAux pats 0 rest) = _
          rw [hf]
        rw [he] at hc
        rcases List.mem_cons.mp hc with hc | hc
        · rw [hc]; exact List.mem_cons_self x rest
        · exact List.mem_cons_of_mem x (ih 0 c hc)

theorem splitWs_all_ws : ∀ (l : List Char), (∀ c ∈ l, isWs c = true) →
    splitWs l = [] := by
  intro l
  induction l with
  | nil => intro _; rfl
  | cons c rest ih =>
    intro h
    rw [splitWs, swAux_cons, h c (List.mem_cons_self c rest)]
    simp only [if_true, List.isEmpty_nil]
    exact ih (fun x hx => h x (List.mem_cons_of_mem c hx))

/-- Claim C6: the core is total by construction (every function above is a
total Lean function), and on empty or whitespace-only input the pipeline
returns an empty chain and an empty body. -/
theorem claim_C6_total_empty (t : List Char) (h : ∀ c ∈ t, isWs c = true) :
    segmentText t = ([], []) := by
  have hnorm : normalizeAr t = [] := by
    unfold normalizeAr
    cases ht : t.isEmpty with
    | true => simp
    | false =>
      simp only [Bool.false_eq_true, if_false]
      rw [collapseWs]
      have hall : ∀ c ∈ subDelete [benedP] (subDelete honAlts
          (t.filter (fun c => !isPunct c))), isWs c = true := by
        intro c hc
        have h1 : c ∈ subDelete honAlts (t.filter fun c => !isPunct c) :=
          sdAux_subset [benedP] _ 0 c hc
        have h2 : c ∈ t.filter (fun c => !isPunct c) :=
          sdAux_subset honAlts _ 0 c h1
        exact h c (List.mem_filter.mp h2).1
      rw [splitWs_all_ws _ hall]
      rfl
  unfold segmentText
  rw [hnorm]
  decide

/-- Claim C10: the returned body is empty exactly when the normalized text
is empty: the realigner either takes the whole normalized text as body, or
cuts at a prefix length strictly below the token count, so a non-empty
normalized text always leaves at least one word in the body. -/
theorem claim_C10_body_empty_iff (s : List Char) :
    (segmentText s).2 = [] ↔ normalizeAr s = [] := by
  rcases normalizeAr_join s with ⟨ws, hn, hwf⟩
  have htoks : splitWs (normalizeAr s) = ws := by
    rw [hn]
    exact splitWs_joinW ws hwf
  rcases applySplit_cases (normalizeAr s)
      (bodyCandidate (markOf (normalizeAr s))) with hcase | ⟨d, hd0, hdlt, hcase⟩
  · have hseg : segmentText s = ([], normalizeAr s) := hcase
    rw [hseg]
  · have hseg : segmentText s =
        (stripWs (joinW ((splitWs (normalizeAr s)).take d)),
         stripWs (joinW ((splitWs (normalizeAr s)).drop d))) := hcase
    rw [htoks] at hseg hdlt
    have hwfdrop : ∀ w ∈ ws.drop d, w ≠ [] ∧ ∀ c ∈ w, isWs c = false :=
      fun w hw => hwf w (List.drop_subset d ws hw)
    have hdropne : ws.drop d ≠ [] := by
      apply List.ne_nil_of_length_pos
      rw [List.length_drop]
      omega
    rcases List.exists_cons_of_ne_nil hdropne with ⟨w0, tl, hd⟩
    have hbody : (segmentText s).2 = joinW (ws.drop d) := by
      rw [hseg]
      exact stripWs_joinW (ws.drop d) hwfdrop
    have hbne : joinW (ws.drop d) ≠ [] := by
      rw [hd]
      refine joinW_ne_nil w0 tl ?_
      exact (hwfdrop w0 (by rw [hd]; exact List.mem_cons_self w0 tl)).1
    have hwsne : ws ≠ [] := by
      apply List.ne_nil_of_length_pos
      omega
    rcases List.exists_cons_of_ne_nil hwsne with ⟨v0, vtl, hv⟩
    have hnne : normalizeAr s ≠ [] := by
      rw [hn, hv]
      exact joinW_ne_nil v0 vtl (hwf v0 (by rw [hv]; exact List.mem_cons_self v0 vtl)).1
    constructor
    · intro hb
      rw [hbody] at hb
      exact absurd hb hbne
    · intro hb
      exact absurd hb hnne

/-- Claim C1: for every input, the chain is the first `d` words of the
normalized token list and the body the remaining words for some cut `d`,
and chain and body joined with a single space and trimmed have exactly the
normalized text's tokens — no word is lost, duplicated or reordered. -/
theorem claim_C1_reconstruction (s : List Char) :
    ∃ d, d ≤ (splitWs (normalizeAr s)).length ∧
      (segmentText s).1 = joinW ((splitWs (normalizeAr s)).take d) ∧
      (segmentText s).2 = joinW ((splitWs (normalizeAr s)).drop d) ∧
      splitWs (stripWs ((segmentText s).1 ++ ' ' :: (segmentText s).2)) =
        splitWs (normalizeAr s) := by
  rcases normalizeAr_join s with ⟨ws, hn, hwf⟩
  have htoks : splitWs (normalizeAr s) = ws := by
    rw [hn]
    exact splitWs_joinW ws hwf
  rcases applySplit_cases (normalizeAr s)
      (bodyCandidate (markOf (normalizeAr s))) with hcase | ⟨d, hd0, hdlt, hcase⟩
  · have hseg : segmentText s = ([], normalizeAr s) := hcase
    refine ⟨0, Nat.zero_le _, ?_, ?_, ?_⟩
    · rw [hseg]
      simp [joinW]
    · rw [hseg, htoks, List.drop_zero, ← hn]
    · rw [hseg]
      simp only [List.nil_append]
      rw [stripWs_cons_space, hn, stripWs_joinW ws hwf]
  · have hseg : segmentText s =
        (stripWs (joinW ((splitWs (normalizeAr s)).take d)),
         stripWs (joinW ((splitWs (normalizeAr s)).drop d))) := hcase
    rw [htoks] at hseg hdlt
    have hwftake : ∀ w ∈ ws.take d, w ≠ [] ∧ ∀ c ∈ w, isWs c = false :=
      fun w hw => hwf w (List.mem_of_mem_take hw)
    have hwfdrop : ∀ w ∈ ws.drop d, w ≠ [] ∧ ∀ c ∈ w, isWs c = false :=
      fun w hw => hwf w (List.drop_subset d ws hw)
    have htakene : ws.take d ≠ [] := by
      apply List.ne_nil_of_length_pos
      rw [List.length_take]
      omega
    have hdropne : ws.drop d ≠ [] := by
      apply List.ne_nil_of_length_pos
      rw [List.length_drop]
      omega
    have hchain : (segmentText s).1 = joinW (ws.take d) := by
      rw [hseg]
      exact stripWs_joinW _ hwftake
    have hbody : (segmentText s).2 = joinW (ws.drop d) := by
      rw [hseg]
      exact stripWs_joinW _ hwfdrop
    refine ⟨d, by rw [htoks]; omega, by rw [hchain, htoks],
      by rw [hbody, htoks], ?_⟩
    rw [hchain, hbody, ← joinW_append_ne (ws.take d) (ws.drop d) htakene hdropne,
      List.take_append_drop, stripWs_joinW ws hwf, htoks]
    exact splitWs_joinW ws hwf

/-! Tokenizer round-trip lemmas. -/

theorem msAux_skip : ∀ (k : Nat) (l : List Char) (prev : Option Char),
    msAux prev k l = msAux prev 0 (l.drop k) := by
  intro k
  induction k with
  | zero => intro l prev; rw [List.drop_zero]
  | succ k ih =>
    intro l prev
    cases l with
    | nil => rfl
    | cons c rest =>
      have he : msAux prev (k + 1) (c :: rest) = msAux prev k rest := rfl
      rw [he, ih rest prev, List.drop_succ_cons]

theorem matchKw_some (l kw : List Char) (h : matchKw l = some kw) :
    kw ∈ kwList ∧ leadsList kw l = true := by
  have h1 := List.find?_some h
  have h2 := List.mem_of_find?_eq_some h
  rw [Bool.and_eq_true] at h1
  exact ⟨h2, h1.1⟩

theorem map_pair_false (o : Option (List Char)) (kw : List Char)
    (h : o.map (fun kw => (kw, false)) = some (kw, false)) : o = some kw := by
  cases o with
  | none => simp at h
  | some a =>
    have h2 : (a, false) = (kw, false) := Option.some.inj h
    exact congrArg (fun x => some x.1) h2

theorem tryMatch_false (l kw : List Char) (h : tryMatch l = some (kw, false)) :
    matchKw l = some kw := by
  cases l with
  | nil => exact map_pair_false _ kw h
  | cons c l2 =>
    by_cases hc : c = 'و'
    · have he : tryMatch (c :: l2) =
          match matchKw l2 with
          | some kw => some (kw, true)
          | none => (matchKw (c :: l2)).map (fun kw => (kw, false)) := by
        simp [tryMatch, hc]
      rw [he] at h
      cases hm : matchKw l2 with
      | some kw2 =>
        rw [hm] at h
        simp at h
      | none =>
        rw [hm] at h
        exact map_pair_false _ kw h
    · have he : tryMatch (c :: l2) =
          (matchKw (c :: l2)).map (fun kw => (kw, false)) := by
        simp [tryMatch, hc]
      rw [he] at h
      exact map_pair_false _ kw h

theorem kwList_facts : ∀ kw ∈ kwList, kw ≠ [] ∧ '~' ∉ kw := by decide

theorem leadsList_decomp : ∀ (p l : List Char), leadsList p l = true →
    l = p ++ l.drop p.length := by
  intro p
  induction p with
  | nil => intro l _; simp
  | cons a as ih =>
    intro l h
    cases l with
    | nil => simp [leadsList] at h
    | cons b bs =>
      have he : leadsList (a :: as) (b :: bs) = (a == b && leadsList as bs) := rfl
      rw [he, Bool.and_eq_true] at h
      have hab : a = b := eq_of_beq h.1
      have hbs := ih bs h.2
      rw [hab, List.length_cons, List.drop_succ_cons, List.cons_append]
      exact congrArg (b :: ·) hbs

theorem unmark2_skip (rest : List Char) :
    unmark2 ('~' :: ' ' :: rest) = unmark2 rest := by
  rw [unmark2]
  simp

theorem unmark2_cons_ne (c : Char) (rest : List Char) (h : c ≠ '~') :
    unmark2 (c :: rest) = c :: unmark2 rest := by
  cases rest with
  | nil => rfl
  | cons d r2 =>
    rw [unmark2, if_neg (fun hcd => h hcd.1)]

theorem unmark2_append (a x : List Char) (h : '~' ∉ a) :
    unmark2 (a ++ x) = a ++ unmark2 x := by
  induction a with
  | nil => rfl
  | cons c a ih =>
    have hc : c ≠ '~' := fun hcc => h (hcc ▸ List.mem_cons_self c a)
    rw [List.cons_append, unmark2_cons_ne c _ hc,
      ih (fun hm => h (List.mem_cons_of_mem c hm)), List.cons_append]

theorem msAux_zero_cons (prev : Option Char) (c : Char) (rest : List Char) :
    msAux prev 0 (c :: rest) =
      if prevOk prev && isWordChar c then
        match tryMatch (c :: rest) with
        | some (kw, w) =>
          ('~' :: ' ' :: (kw ++
              (msAux (some ((if w then 'و' :: kw else kw).getLastD ' '))
                ((if w then 'و' :: kw else kw).length - 1) rest).1),
           w || (msAux (some ((if w then 'و' :: kw else kw).getLastD ' '))
                ((if w then 'و' :: kw else kw).length - 1) rest).2)
        | none =>
          (c :: (msAux (some c) 0 rest).1, (msAux (some c) 0 rest).2)
      else
        (c :: (msAux (some c) 0 rest).1, (msAux (some c) 0 rest).2) := rfl

theorem msAux_unmark : ∀ (n : Nat) (l : List Char) (prev : Option Char),
    l.length ≤ n → '~' ∉ l → (msAux prev 0 l).2 = false →
    unmark2 ((msAux prev 0 l).1) = l := by
  intro n
  induction n with
  | zero =>
    intro l prev hlen _ _
    have hl : l = [] := List.eq_nil_of_length_eq_zero (Nat.le_zero.mp hlen)
    rw [hl]
    rfl
  | succ n ih =>
    intro l prev hlen htl hflag
    cases l with
    | nil => rfl
    | cons c rest =>
      have hcne : c ≠ '~' := fun hcc => htl (hcc ▸ List.mem_cons_self c rest)
      have htlr : '~' ∉ rest := fun hm => htl (List.mem_cons_of_mem c hm)
      have hlenr : rest.length ≤ n := by
        rw [List.length_cons] at hlen
        omega
      cases hb : (prevOk prev && isWordChar c) with
      | false =>
        have he1 : (msAux prev 0 (c :: rest)).1 =
            c :: (msAux (some c) 0 rest).1 := by
          rw [msAux_zero_cons, hb]
          simp
        have he2 : (msAux prev 0 (c :: rest)).2 =
            (msAux (some c) 0 rest).2 := by
          rw [msAux_zero_cons, hb]
          simp
        rw [he2] at hflag
        rw [he1, unmark2_cons_ne c _ hcne, ih rest (some c) hlenr htlr hflag]
      | true =>
        cases htm : tryMatch (c :: rest) with
        | none =>
          have he1 : (msAux prev 0 (c :: rest)).1 =
              c :: (msAux (some c) 0 rest).1 := by
            rw [msAux_zero_cons, hb, htm]
            simp
          have he2 : (msAux prev 0 (c :: rest)).2 =
              (msAux (some c) 0 rest).2 := by
            rw [msAux_zero_cons, hb, htm]
            simp
          rw [he2] at hflag
          rw [he1, unmark2_cons_ne c _ hcne, ih rest (some c) hlenr htlr hflag]
        | some pr =>
          rcases pr with ⟨kw, w⟩
          have he2 : (msAux prev 0 (c :: rest)).2 =
              (w || (msAux (some ((if w then 'و' :: kw else kw).getLastD ' '))
                ((if w then 'و' :: kw else kw).length - 1) rest).2) := by
            rw [msAux_zero_cons, hb, htm]
            simp
          rw [he2] at hflag
          rcases Bool.or_eq_false_iff.mp hflag with ⟨hw, hflag2⟩
          subst hw
          simp only [Bool.false_eq_true, if_false] at hflag2
          have he1 : (msAux prev 0 (c :: rest)).1 =
              '~' :: ' ' :: (kw ++
                (msAux (some (kw.getLastD ' ')) (kw.length - 1) rest).1) := by
            rw [msAux_zero_cons, hb, htm]
            simp
          have hmk : matchKw (c :: rest) = some kw := tryMatch_false _ kw htm
          rcases matchKw_some _ kw hmk with ⟨hmem, hlead⟩
          rcases kwList_facts kw hmem with ⟨hkwne, hkwtl⟩
          have hdecomp : c :: rest = kw ++ (c :: rest).drop kw.length :=
            leadsList_decomp kw (c :: rest) hlead
          have hdropeq : (c :: rest).drop kw.length = rest.drop (kw.length - 1) := by
            rcases List.exists_cons_of_ne_nil hkwne with ⟨k0, ks, hk⟩
            rw [hk, List.length_cons, List.drop_succ_cons]
            simp
          have hskip : msAux (some (kw.getLastD ' ')) (kw.length - 1) rest =
              msAux (some (kw.getLastD ' ')) 0 (rest.drop (kw.length - 1)) :=
            msAux_skip (kw.length - 1) rest _
          rw [hskip] at hflag2
          have hlen2 : (rest.drop (kw.length - 1)).length ≤ n := by
            rw [List.length_drop]
            omega
          have htl2 : '~' ∉ rest.drop (kw.length - 1) :=
            fun hm => htlr (List.drop_subset (kw.length - 1) rest hm)
          have hIH := ih (rest.drop (kw.length - 1))
            (some (kw.getLastD ' ')) hlen2 htl2 hflag2
          rw [he1, unmark2_skip, unmark2_append kw _ hkwtl, hskip, hIH,
            ← hdropeq]
          exact hdecomp.symm

/-- Claim C5 amended: the keyword substitution replaces each matched span
(an optional attached conjunction "و" plus a keyword) by the marker, one
inserted space and the bare keyword. Deleting each marker together with
its inserted space recovers the input exactly whenever no match consumed
an attached "و"; when a "و" is consumed its replacement `~ \1` drops it,
and deleting marker characters alone (as the claim words it) leaves the
inserted space behind unless the match site follows whitespace, as the
counterexample shows. -/
theorem claim_C5_amended (s : List Char) (h1 : '~' ∉ s)
    (h2 : wawConsumed s = false) : unmark2 (markSub s) = s :=
  msAux_unmark s.length s none le_rfl h1 h2

/-- Claim C5 counterexample: for the diacritic-free normalized text
"(وقال" the marked text is "(~ قال": the attached conjunction "و" is
dropped by the replacement `~ \1`, and deleting the marker characters and
collapsing whitespace yields "( قال" — an inserted space survives next to
a non-whitespace boundary — so the claimed round-trip identity fails. -/
theorem claim_C5_counterexample :
    normalizeAr "(وقال".toList = "(وقال".toList ∧
    removeDiacritics "(وقال".toList = "(وقال".toList ∧
    markOf "(وقال".toList = "(~ قال".toList ∧
    collapseWs (removeTilde (markOf "(وقال".toList)) = "( قال".toList ∧
    "( قال".toList ≠ "(وقال".toList := by decide

/-! Substring-occurrence and deletion-pass lemmas. -/

theorem leadsList_refl_append : ∀ (p t : List Char),
    leadsList p (p ++ t) = true := by
  intro p
  induction p with
  | nil => intro t; rfl
  | cons a as ih =>
    intro t
    have he : leadsList (a :: as) ((a :: as) ++ t) =
        (a == a && leadsList as (as ++ t)) := rfl
    rw [he, ih t]
    simp

theorem leadsList_nil_false (p : List Char) (h : p ≠ []) :
    leadsList p [] = false := by
  cases p with
  | nil => exact absurd rfl h
  | cons a as => rfl

theorem occurs_cons (p : List Char) (c : Char) (rest : List Char) :
    occurs p (c :: rest) = (leadsList p (c :: rest) || occurs p rest) := rfl

theorem occurs_iff : ∀ (p l : List Char),
    occurs p l = true ↔ ∃ a b, l = a ++ p ++ b := by
  intro p l
  induction l with
  | nil =>
    constructor
    · intro h
      cases hp : p with
      | nil => exact ⟨[], [], rfl⟩
      | cons x xs =>
        rw [hp] at h
        have : occurs (x :: xs) [] = leadsList (x :: xs) [] := rfl
        rw [this, leadsList_nil_false (x :: xs) (by simp)] at h
        exact absurd h (by simp)
    · intro ⟨a, b, hab⟩
      rcases List.append_eq_nil.mp hab.symm with ⟨ha, hpb⟩
      rcases List.append_eq_nil.mp ha with ⟨_, hp⟩
      rw [hp]
      rfl
  | cons c rest ih =>
    constructor
    · intro h
      rw [occurs_cons] at h
      have h2 : leadsList p (c :: rest) = true ∨ occurs p rest = true := by
        simpa using h
      rcases h2 with h | h
      · exact ⟨[], (c :: rest).drop p.length, leadsList_decomp p (c :: rest) h⟩
      · rcases ih.mp h with ⟨a, b, hab⟩
        exact ⟨c :: a, b, by rw [hab]; rfl⟩
    · intro ⟨a, b, hab⟩
      rw [occurs_cons]
      cases a with
      | nil =>
        have : leadsList p (c :: rest) = true := by
          rw [List.nil_append] at hab
          rw [hab]
          exact leadsList_refl_append p b
        rw [this]
        simp
      | cons a0 as =>
        have hrest : rest = as ++ p ++ b := by
          have := hab
          simp only [List.cons_append, List.cons.injEq] at this
          exact this.2
        have : occurs p rest = true := ih.mpr ⟨as, b, hrest⟩
        rw [this]
        simp

theorem occurs_filter (p l : List Char) (q : Char → Bool)
    (hp : p.filter q = p) (h : occurs p l = true) :
    occurs p (l.filter q) = true := by
  rcases (occurs_iff p l).mp h with ⟨a, b, hab⟩
  refine (occurs_iff p _).mpr ⟨a.filter q, b.filter q, ?_⟩
  rw [hab, List.filter_append, List.filter_append, hp]

theorem sdAux_zero_some (pats : List (List Char)) (x : Char)
    (rest a : List Char) (h : findAlt pats (x :: rest) = some a) :
    sdAux pats 0 (x :: rest) = sdAux pats (a.length - 1) rest := by
  show (match findAlt pats (x :: rest) with
    | some a => sdAux pats (a.length - 1) rest
    | none => x :: sdAux pats 0 rest) = _
  rw [h]

theorem sdAux_zero_none (pats : List (List Char)) (x : Char)
    (rest : List Char) (h : findAlt pats (x :: rest) = none) :
    sdAux pats 0 (x :: rest) = x :: sdAux pats 0 rest := by
  show (match findAlt pats (x :: rest) with
    | some a => sdAux pats (a.length - 1) rest
    | none => x :: sdAux pats 0 rest) = _
  rw [h]

theorem findAlt_some (pats : List (List Char)) (l a : List Char)
    (h : findAlt pats l = some a) : a ∈ pats ∧ leadsList a l = true := by
  rw [findAlt] at h
  have h3 := List.find?_some h
  exact ⟨List.mem_of_find?_eq_some h, by simpa using h3⟩

theorem findAlt_none (pats : List (List Char)) (l : List Char)
    (h : findAlt pats l = none) : ∀ p ∈ pats, leadsList p l = false := by
  rw [findAlt] at h
  intro p hp
  have := List.find?_eq_none.mp h p hp
  exact Bool.not_eq_true _ ▸ (by simpa using this)

theorem subDelete_id (pats : List (List Char)) : ∀ (l : List Char),
    (∀ q ∈ pats, occurs q l = false) → subDelete pats l = l := by
  intro l
  induction l with
  | nil => intro _; rfl
  | cons c rest ih =>
    intro h
    cases hf : findAlt pats (c :: rest) with
    | some a =>
      rcases findAlt_some pats _ a hf with ⟨hmem, hlead⟩
      have : occurs a (c :: rest) = true := by
        rw [occurs_cons, hlead]
        simp
      rw [h a hmem] at this
      exact absurd this (by simp)
    | none =>
      rw [subDelete, sdAux_zero_none pats c rest hf]
      have : subDelete pats rest = rest := by
        refine ih ?_
        intro q hq
        have hocc := h q hq
        rw [occurs_cons] at hocc
        exact (Bool.or_eq_false_iff.mp hocc).2
      rw [subDelete] at this
      rw [this]

theorem sdAux_length_le (pats : List (List Char)) : ∀ (l : List Char) (k : Nat),
    (sdAux pats k l).length ≤ l.length := by
  intro l
  induction l with
  | nil => intro k; cases k <;> simp [sdAux]
  | cons c rest ih =>
    intro k
    cases k with
    | succ k =>
      have he : sdAux pats (k + 1) (c :: rest) = sdAux pats k rest := rfl
      rw [he, List.length_cons]
      exact Nat.le_succ_of_le (ih k)
    | zero =>
      cases hf : findAlt pats (c :: rest) with
      | some a =>
        rw [sdAux_zero_some pats c rest a hf, List.length_cons]
        exact Nat.le_succ_of_le (ih (a.length - 1))
      | none =>
        rw [sdAux_zero_none pats c rest hf, List.length_cons, List.length_cons]
        exact Nat.succ_le_succ (ih 0)

theorem subDelete_length_lt (pats : List (List Char)) (p : List Char)
    (hp : p ∈ pats) (hne : p ≠ []) : ∀ (l : List Char),
    occurs p l = true → (subDelete pats l).length < l.length := by
  intro l
  induction l with
  | nil =>
    intro h
    have : occurs p [] = leadsList p [] := rfl
    rw [this, leadsList_nil_false p hne] at h
    exact absurd h (by simp)
  | cons c rest ih =>
    intro h
    cases hf : findAlt pats (c :: rest) with
    | some a =>
      rw [subDelete, sdAux_zero_some pats c rest a hf, List.length_cons]
      exact Nat.lt_succ_of_le (sdAux_length_le pats rest (a.length - 1))
    | none =>
      rw [subDelete, sdAux_zero_none pats c rest hf, List.length_cons,
        List.length_cons]
      have hlead : leadsList p (c :: rest) = false := findAlt_none pats _ hf p hp
      rw [occurs_cons, hlead] at h
      simp only [Bool.false_or] at h
      have := ih h
      rw [subDelete] at this
      omega

/-! Collapsed-whitespace cleanliness lemmas. -/

theorem noAdjWs_cons_cons (c d : Char) (r : List Char) :
    noAdjWs (c :: d :: r) = (!(isWs c && isWs d) && noAdjWs (d :: r)) := rfl

theorem noAdjWs_append_nonws : ∀ (a b : List Char),
    (∀ c ∈ a, isWs c = false) → noAdjWs (a ++ b) = noAdjWs b := by
  intro a
  induction a with
  | nil => intro b _; rfl
  | cons x a2 ih =>
    intro b h
    have hx : isWs x = false := h x (List.mem_cons_self x a2)
    cases a2 with
    | nil =>
      cases b with
      | nil => rfl
      | cons d br =>
        rw [List.singleton_append, noAdjWs_cons_cons, hx]
        simp
    | cons y a3 =>
      rw [List.cons_append, List.cons_append, noAdjWs_cons_cons, hx]
      simp only [Bool.false_and, Bool.not_false, Bool.true_and]
      rw [← List.cons_append]
      exact ih b (fun c hc => h c (List.mem_cons_of_mem x hc))

theorem noAdjWs_joinW : ∀ (ws : List (List Char)),
    (∀ w ∈ ws, w ≠ [] ∧ ∀ c ∈ w, isWs c = false) →
    noAdjWs (joinW ws) = true := by
  intro ws
  induction ws with
  | nil => intro _; rfl
  | cons w ws2 ih =>
    intro h
    have hw := h w (List.mem_cons_self w ws2)
    cases ws2 with
    | nil =>
      have : joinW [w] = w ++ [] := by simp [joinW]
      rw [this, noAdjWs_append_nonws w [] hw.2]
      rfl
    | cons w2 ws3 =>
      rw [joinW_cons_ne w (w2 :: ws3) (by simp),
        noAdjWs_append_nonws w _ hw.2]
      have hw2 := h w2 (List.mem_cons_of_mem w (List.mem_cons_self w2 ws3))
      rcases joinW_eq_append w2 ws3 with ⟨t, ht⟩
      rcases List.exists_cons_of_ne_nil hw2.1 with ⟨c0, w0, hw0⟩
      rw [ht, hw0, List.cons_append, noAdjWs_cons_cons]
      have hc0 : isWs c0 = false :=
        hw2.2 c0 (by rw [hw0]; exact List.mem_cons_self c0 w0)
      rw [hc0]
      simp only [Bool.and_false, Bool.not_false, Bool.true_and]
      rw [← List.cons_append, ← hw0, ← ht]
      exact ih (fun x hx => h x (List.mem_cons_of_mem w hx))

theorem cleanStr_joinW (ws : List (List Char))
    (h : ∀ w ∈ ws, w ≠ [] ∧ ∀ c ∈ w, isWs c = false) :
    cleanStr (joinW ws) = true := by
  rw [cleanStr, noAdjWs_joinW ws h]
  have hHead : headOkWs (joinW ws) = true := by
    cases ws with
    | nil => rfl
    | cons w ws2 =>
      have hw := h w (List.mem_cons_self w ws2)
      rcases joinW_eq_append w ws2 with ⟨t, ht⟩
      rcases List.exists_cons_of_ne_nil hw.1 with ⟨c0, w0, hw0⟩
      rw [ht, hw0, List.cons_append, headOkWs]
      rw [hw.2 c0 (by rw [hw0]; exact List.mem_cons_self c0 w0)]
      rfl
  have hLast : lastOkWs (joinW ws) = true := by
    rw [lastOkWs]
    cases hg : (joinW ws).getLast? with
    | none => rfl
    | some c =>
      show (!isWs c) = true
      rw [joinW_getLast_nonws ws h c hg]
      rfl
  have hSp : wsOnlySpace (joinW ws) = true := by
    rw [wsOnlySpace, List.all_eq_true]
    intro c hc
    rcases joinW_mem ws c hc with hc | ⟨w, hw, hcw⟩
    · rw [hc]
      rfl
    · rw [(h w hw).2 c hcw]
      rfl
  rw [hHead, hLast, hSp]
  rfl

theorem cleanStr_normalizeAr (s : List Char) :
    cleanStr (normalizeAr s) = true := by
  rcases normalizeAr_join s with ⟨ws, hn, hwf⟩
  rw [hn]
  exact cleanStr_joinW ws hwf

/-! Normalization-pass identity lemmas. -/

theorem normalizeAr_ne (t : List Char) (h : t.isEmpty = false) :
    normalizeAr t = collapseWs (subDelete [benedP] (subDelete honAlts
      (t.filter (fun c => !isPunct c)))) := by
  unfold normalizeAr
  rw [h]
  simp

theorem normalizeAr_no_punct (s : List Char) :
    ∀ c ∈ normalizeAr s, isPunct c = false := by
  intro c hc
  unfold normalizeAr at hc
  cases ht : s.isEmpty with
  | true => rw [ht] at hc; simp at hc
  | false =>
    rw [ht] at hc
    simp only [Bool.false_eq_true, if_false] at hc
    rw [collapseWs] at hc
    rcases joinW_mem _ c hc with hc | ⟨w, hw, hcw⟩
    · rw [hc]; rfl
    · have h1 : c ∈ subDelete [benedP] (subDelete honAlts
          (s.filter (fun c => !isPunct c))) := splitWs_subset _ w hw c hcw
      have h2 : c ∈ subDelete honAlts (s.filter (fun c => !isPunct c)) :=
        sdAux_subset [benedP] _ 0 c h1
      have h3 : c ∈ s.filter (fun c => !isPunct c) :=
        sdAux_subset honAlts _ 0 c h2
      have h4 := (List.mem_filter.mp h3).2
      simpa using h4

/-- Claim C7 counterexample: normalization is not idempotent. The input
"رضى  الله عنه" (with a doubled interior space) is unchanged by the
honorific pass, but the final whitespace collapse produces the exact
honorific phrase "رضى الله عنه", which a second normalization deletes
entirely. -/
theorem claim_C7_counterexample :
    normalizeAr (normalizeAr "رضى  الله عنه".toList) ≠
      normalizeAr "رضى  الله عنه".toList := by decide

/-- Claim C7 amended: normalization is idempotent on every input whose
normalized form contains no honorific alternative and no benediction
phrase. (In general a second pass can differ, because deleting characters
or collapsing whitespace can juxtapose the surrounding text into a fresh
honorific occurrence, as the counterexample shows.) -/
theorem claim_C7_amended (s : List Char)
    (h1 : ∀ p ∈ honAlts, occurs p (normalizeAr s) = false)
    (h2 : occurs benedP (normalizeAr s) = false) :
    normalizeAr (normalizeAr s) = normalizeAr s := by
  by_cases hn : normalizeAr s = []
  · rw [hn]
    rfl
  · have hne : (normalizeAr s).isEmpty = false := by
      cases hx : normalizeAr s with
      | nil => exact absurd hx hn
      | cons c r => rfl
    rw [normalizeAr_ne (normalizeAr s) hne]
    rw [List.filter_eq_self.mpr (by
      intro c hc
      have := normalizeAr_no_punct s c hc
      simpa using this)]
    rw [subDelete_id honAlts _ h1]
    rw [subDelete_id [benedP] _ (by
      intro q hq
      rw [List.mem_singleton] at hq
      rw [hq]
      exact h2)]
    rcases normalizeAr_join s with ⟨ws, hn2, hwf⟩
    rw [hn2]
    exact collapseWs_joinW ws hwf

/-- Claim C8 counterexample: an input containing the exact honorific
phrase "رضى الله عنه" whose normalized output STILL contains that exact
phrase: deleting the embedded honorific occurrence juxtaposes the
surrounding characters into a fresh occurrence, which the single
left-to-right pass does not revisit. -/
theorem claim_C8_counterexample :
    occurs honHE "رضى الله عنرضى الله عنهه".toList = true ∧
    occurs honHE (normalizeAr "رضى الله عنرضى الله عنهه".toList) = true := by
  decide

/-- Claim C8 amended: for every input containing "رضى الله عنه", the
honorific pass (run on the punctuation-stripped text) removes at least
one honorific occurrence, strictly shortening the text; the final
normalized output has fully collapsed whitespace (no double whitespace,
no edge whitespace, spaces only); and although the alternation lists
"عنها" before the longer "عنهما", no alternative shadows another — a
"رضى الله عنهما" occurrence is always consumed whole. The output may
still contain the phrase when a removal juxtaposes a fresh occurrence,
as the counterexample shows. -/
theorem claim_C8_amended (s r : List Char) (h : occurs honHE s = true) :
    (subDelete honAlts (s.filter (fun c => !isPunct c))).length <
        (s.filter (fun c => !isPunct c)).length ∧
    cleanStr (normalizeAr s) = true ∧
    subDelete honAlts (honHMA ++ r) = subDelete honAlts r := by
  refine ⟨?_, cleanStr_normalizeAr s, rfl⟩
  have hocc : occurs honHE (s.filter (fun c => !isPunct c)) = true :=
    occurs_filter honHE s _ (by decide) h
  exact subDelete_length_lt honAlts honHE (by decide) (by decide) _ hocc

/-! Quote-collapse lemmas for the English normalizer. -/

theorem cqAux_cons_q_false (c : Char) (rest : List Char)
    (hc : (c == '"') = true) :
    cqAux false (c :: rest) = '"' :: cqAux true rest := by
  simp [cqAux, hc]

theorem cqAux_cons_q_true (c : Char) (rest : List Char)
    (hc : (c == '"') = true) :
    cqAux true (c :: rest) = cqAux true rest := by
  simp [cqAux, hc]

theorem cqAux_cons_nq (b : Bool) (c : Char) (rest : List Char)
    (hc : (c == '"') = false) :
    cqAux b (c :: rest) = c :: cqAux false rest := by
  simp [cqAux, hc]

theorem cqAux_true_head : ∀ (l : List Char) (c : Char),
    (cqAux true l).head? = some c → c ≠ '"' := by
  intro l
  induction l with
  | nil => intro c hc; simp [cqAux] at hc
  | cons d rest ih =>
    intro c hc
    cases hd : (d == '"') with
    | true =>
      rw [cqAux_cons_q_true d rest hd] at hc
      exact ih c hc
    | false =>
      rw [cqAux_cons_nq true d rest hd, List.head?_cons] at hc
      have hdc : d = c := by simpa using hc
      rw [← hdc]
      intro hdd
      rw [hdd] at hd
      simp at hd

theorem noAdjQ_cons_cons (c d : Char) (r : List Char) :
    noAdjQ (c :: d :: r) = (!(c == '"' && d == '"') && noAdjQ (d :: r)) := rfl

theorem cqAux_noAdjQ : ∀ (l : List Char) (b : Bool),
    noAdjQ (cqAux b l) = true := by
  intro l
  induction l with
  | nil => intro b; rfl
  | cons c rest ih =>
    intro b
    cases hc : (c == '"') with
    | true =>
      cases b with
      | true =>
        rw [cqAux_cons_q_true c rest hc]
        exact ih true
      | false =>
        rw [cqAux_cons_q_false c rest hc]
        cases hx : cqAux true rest with
        | nil => rfl
        | cons d X =>
          rw [noAdjQ_cons_cons]
          have hd : d ≠ '"' := cqAux_true_head rest d (by rw [hx]; rfl)
          have hdf : (d == '"') = false := by simpa using hd
          rw [hdf]
          simp only [Bool.and_false, Bool.not_false, Bool.true_and]
          rw [← hx]
          exact ih true
    | false =>
      rw [cqAux_cons_nq b c rest hc]
      cases hx : cqAux false rest with
      | nil => rfl
      | cons d X =>
        rw [noAdjQ_cons_cons, hc]
        simp only [Bool.false_and, Bool.not_false, Bool.true_and]
        rw [← hx]
        exact ih false

theorem cqAux_getLast : ∀ (l : List Char) (b : Bool),
    l.getLast? ≠ some '"' → (cqAux b l).getLast? = l.getLast? := by
  intro l
  induction l with
  | nil => intro b _; rfl
  | cons c rest ih =>
    intro b hlast
    cases rest with
    | nil =>
      have hc : (c == '"') = false := by
        cases h2 : (c == '"') with
        | false => rfl
        | true =>
          have hcq := eq_of_beq h2
          rw [hcq] at hlast
          exact absurd (by simp) hlast
      rw [cqAux_cons_nq b c [] hc]
      rfl
    | cons d r2 =>
      have hlast2 : (d :: r2).getLast? ≠ some '"' := by
        rwa [List.getLast?_cons_cons] at hlast
      have hne : ∀ b2, cqAux b2 (d :: r2) ≠ [] := by
        intro b2 hnil
        have hgl := ih b2 hlast2
        rw [hnil] at hgl
        have h2 : (d :: r2).getLast? = none := hgl.symm
        rw [List.getLast?_eq_none_iff] at h2
        simp at h2
      cases hc : (c == '"') with
      | true =>
        cases b with
        | true =>
          rw [cqAux_cons_q_true c _ hc, ih true hlast2,
            List.getLast?_cons_cons]
        | false =>
          rw [cqAux_cons_q_false c _ hc]
          rcases List.exists_cons_of_ne_nil (hne true) with ⟨e, X, hX⟩
          rw [hX, List.getLast?_cons_cons, ← hX, ih true hlast2,
            List.getLast?_cons_cons]
      | false =>
        rw [cqAux_cons_nq b c _ hc]
        rcases List.exists_cons_of_ne_nil (hne false) with ⟨e, X, hX⟩
        rw [hX, List.getLast?_cons_cons, ← hX, ih false hlast2,
          List.getLast?_cons_cons]

/-- Claim C9 counterexample: on the English text `""a""` the code strips
ALL leading and trailing quotes (Python `str.strip('"')`), yielding `a`,
while the claim's "exactly one leading and one trailing quote" reading
(modelled by `normEnSpec`) would yield `"a"`. -/
theorem claim_C9_counterexample :
    normEn ['"', '"', 'a', '"', '"'] = ['a'] ∧
    normEnSpec ['"', '"', 'a', '"', '"'] = ['"', 'a', '"'] ∧
    normEn ['"', '"', 'a', '"', '"'] ≠ normEnSpec ['"', '"', 'a', '"', '"'] := by
  decide

/-- Claim C9 amended: for an English text starting with a quote, ALL
leading and trailing quote characters are stripped (not a single pair),
then every run of two or more quotes collapses to one; the result is
stored identically into `text_en` and `body_en`, never starts or ends
with a quote, and contains no two adjacent quotes. -/
theorem claim_C9_amended (t : List Char) (h : startsQ t = true) :
    processEn t = (normEn t, normEn t) ∧
    startsQ (normEn t) = false ∧
    (normEn t).getLast? ≠ some '"' ∧
    noAdjQ (normEn t) = true := by
  have hne : normEn t = collapseQ (stripQuotes t) := by
    rw [normEn, if_pos h]
  refine ⟨rfl, ?_, ?_, ?_⟩
  · rw [hne, collapseQ]
    cases hx : stripQuotes t with
    | nil => rfl
    | cons c X =>
      have hhead : (stripQuotes t).head? = some c := by rw [hx]; rfl
      have hcf : (c == '"') = false :=
        stripP_head_not (fun c => c == '"') t c hhead
      rw [cqAux_cons_nq false c X hcf]
      rw [startsQ, hcf]
  · rw [hne, collapseQ]
    intro hlast
    have hq : (stripQuotes t).getLast? ≠ some '"' := by
      intro hg
      have := stripP_getLast_not (fun c => c == '"') t '"' hg
      simp at this
    rw [cqAux_getLast (stripQuotes t) false hq] at hlast
    exact hq hlast
  · rw [hne, collapseQ]
    exact cqAux_noAdjQ (stripQuotes t) false

/-! Concrete witnesses instantiating the hypothesis-bearing theorems. -/

theorem claim_C2_witness :
    bodyCandidate "حدثنا فلان~ عن النبي قال".toList = "عن النبي قال".toList := by
  rw [claim_C2_boundary_scan "حدثنا فلان~ عن النبي قال".toList 1 (by decide)
    (by decide) (by decide)]
  decide

theorem claim_C3_witness :
    heurH2 (((cleanSegs
        "قال~ حدث محمد بن زيد عن عمرو شيئا كثيرا".toList).drop 1).headD [])
        = false ∧
      scan (cleanSegs "قال~ حدث محمد بن زيد عن عمرو شيئا كثيرا".toList) =
        scan ((cleanSegs
          "قال~ حدث محمد بن زيد عن عمرو شيئا كثيرا".toList).drop 2) :=
  claim_C3_amended "قال~ حدث محمد بن زيد عن عمرو شيئا كثيرا".toList 1
    (by decide) (by decide) (by decide) (by decide)

theorem claim_C4_witness :
    bodyCandidate "كلمة".toList = "كلمة".toList := by
  have h := claim_C4_fallback "كلمة".toList "نص".toList (by decide)
  rw [h.1]
  decide

theorem claim_C5_witness :
    unmark2 (markSub "قال محمد عن فلان".toList) = "قال محمد عن فلان".toList :=
  claim_C5_amended "قال محمد عن فلان".toList (by decide) (by decide)

theorem claim_C6_witness : segmentText "  ".toList = ([], []) :=
  claim_C6_total_empty "  ".toList (by decide)

theorem claim_C7_witness :
    normalizeAr (normalizeAr "قال  محمد".toList) =
      normalizeAr "قال  محمد".toList :=
  claim_C7_amended "قال  محمد".toList (by decide) (by decide)

theorem claim_C8_witness :
    (subDelete honAlts
        ("قال رضى الله عنه كذا".toList.filter (fun c => !isPunct c))).length <
        ("قال رضى الله عنه كذا".toList.filter (fun c => !isPunct c)).length ∧
    cleanStr (normalizeAr "قال رضى الله عنه كذا".toList) = true ∧
    subDelete honAlts (honHMA ++ "نص".toList) = subDelete honAlts "نص".toList :=
  claim_C8_amended "قال رضى الله عنه كذا".toList "نص".toList (by decide)

theorem claim_C9_witness :
    processEn ['"', '"', 'a', 'b', '"', '"'] =
      (normEn ['"', '"', 'a', 'b', '"', '"'],
       normEn ['"', '"', 'a', 'b', '"', '"']) ∧
    startsQ (normEn ['"', '"', 'a', 'b', '"', '"']) = false ∧
    (normEn ['"', '"', 'a', 'b', '"', '"']).getLast? ≠ some '"' ∧
    noAdjQ (normEn ['"', '"', 'a', 'b', '"', '"']) = true :=
  claim_C9_amended ['"', '"', 'a', 'b', '"', '"'] (by decide)
